import Mathlib

/-!
Verification development for the curiosity gemini crawler.

The development shallowly embeds the two source files of the repository:
`gemtext/src/lib.rs` (the gemtext parser and renderer) and `src/main.rs`
(the crawl engine).  Rust strings are modelled as lists of characters
(`Str`), byte vectors as lists of naturals, and the fallible pieces return
`Option` or `Except`.  The external `url` crate is abstracted as a record
of oracles (`UrlCrate`); everything written in the repository itself is
translated function by function.
-/

namespace Curiosity

/-- Rust `&str` and `String`, modelled as the list of characters. -/
abbrev Str := List Char

/-- Convert a Lean string literal to the character-list model. -/
def str (s : String) : Str := s.data

/-- Code points with the Unicode `White_Space` property, the set accepted by
Rust `char::is_whitespace` (used by `str::trim` and `str::trim_end`). -/
def wsCodes : List Nat :=
  [0x09, 0x0A, 0x0B, 0x0C, 0x0D, 0x20, 0x85, 0xA0, 0x1680,
   0x2000, 0x2001, 0x2002, 0x2003, 0x2004, 0x2005, 0x2006, 0x2007,
   0x2008, 0x2009, 0x200A, 0x2028, 0x2029, 0x202F, 0x205F, 0x3000]

/-- Rust `char::is_whitespace`. -/
def isWs (c : Char) : Bool := wsCodes.contains c.toNat

/-- Rust `char::is_ascii_whitespace`: space, tab, line feed, form feed,
carriage return. -/
def isAsciiWs (c : Char) : Bool :=
  c.toNat = 0x20 || c.toNat = 0x09 || c.toNat = 0x0A || c.toNat = 0x0C || c.toNat = 0x0D

/-- Rust `str::starts_with(pat)`: `startsWith pat s` checks that `pat` begins `s`. -/
def startsWith : Str → Str → Bool
  | [], _ => true
  | _ :: _, [] => false
  | a :: p, b :: s => if a = b then startsWith p s else false

/-- Rust `str::trim_start` (leading `char::is_whitespace` characters removed). -/
def trimStart (s : Str) : Str := s.dropWhile isWs

/-- Rust `str::trim_end` (trailing `char::is_whitespace` characters removed). -/
def trimEnd : Str → Str
  | [] => []
  | c :: cs =>
    match trimEnd cs with
    | [] => if isWs c then [] else [c]
    | r => c :: r

/-- Rust `str::trim`. -/
def trim (s : Str) : Str := trimStart (trimEnd s)

/-- Accumulator loop for `split_ascii_whitespace`; `acc` is the word read so far. -/
def splitAWAux : Str → Str → List Str
  | [], acc => if acc = [] then [] else [acc]
  | c :: cs, acc =>
    if isAsciiWs c then
      if acc = [] then splitAWAux cs [] else acc :: splitAWAux cs []
    else splitAWAux cs (acc ++ [c])

/-- Rust `str::split_ascii_whitespace`, collected into a vector: the maximal
runs of non-ASCII-whitespace characters, in order. -/
def splitAW (s : Str) : List Str := splitAWAux s []

/-- The `gemtext::Node` type from `gemtext/src/lib.rs`: the individual nodes of a
document, one per source line (one per block for `Preformatted`).  The
`Link` field named `to` in the Rust source is called `target` here because
`to` is a reserved word in Lean. -/
inductive Node
  | Text (s : Str)
  | Link (target : Str) (name : Option Str)
  | Preformatted (s : Str)
  | Heading (level : Nat) (body : Str)
  | ListItem (s : Str)
  | Quote (s : Str)
  deriving DecidableEq, Repr

/-- The reserved line starts that `render` escapes on `Text` nodes
(`special_prefixes` in `gemtext/src/lib.rs`). -/
def specialStarts : List Str := [str "=>", str "```", str "#", str "*", str ">"]

/-- Does a text body collide with one of the reserved line starts? -/
def isSpecialText (s : Str) : Bool := specialStarts.any (fun p => startsWith p s)

/-- The characters one `Node` contributes to the output of `gemtext::render`. -/
def renderNode : Node → Str
  | .Text body => (if isSpecialText body then [' '] else []) ++ body ++ ['\n']
  | .Link target none => str "=> " ++ target ++ ['\n']
  | .Link target (some name) => str "=> " ++ target ++ [' '] ++ name ++ ['\n']
  | .Preformatted body => str "```" ++ '\n' :: body ++ '\n' :: str "```" ++ ['\n']
  | .Heading level body => List.replicate level '#' ++ ' ' :: body ++ ['\n']
  | .ListItem body => str "* " ++ body ++ ['\n']
  | .Quote body => str "> " ++ body ++ ['\n']

/-- The `gemtext::render` function: each node is written in order to the output. -/
def render : List Node → Str
  | [] => []
  | n :: ns => renderNode n ++ render ns

/-- Split a string at every newline character.  Always returns at least one
piece; a trailing newline contributes a final empty piece. -/
def splitOnNl : Str → List Str
  | [] => [[]]
  | c :: cs =>
    if c = '\n' then [] :: splitOnNl cs
    else
      match splitOnNl cs with
      | [] => [[c]]
      | l :: ls => (c :: l) :: ls

/-- Remove one trailing carriage return, as `str::lines` does per line. -/
def stripCr (l : Str) : Str := if l.getLast? = some '\r' then l.dropLast else l

/-- Rust `str::lines`: split at newlines, drop the optional final empty piece,
strip one trailing carriage return from each line. -/
def rustLines (s : Str) : List Str :=
  (if (splitOnNl s).getLast? = some [] then (splitOnNl s).dropLast else splitOnNl s).map
    stripCr

/-- Classification of one physical line outside a preformatted block, in the
exact order of the checks in `gemtext::parse`: quote, list item, headings
longest first, link, plain text.  A link line with no target produces
nothing. -/
def parseLine (l : Str) : List Node :=
  if startsWith (str ">") l then [.Quote (trim (l.drop 1))]
  else if startsWith (str "*") l then [.ListItem (trim (l.drop 1))]
  else if startsWith (str "###") l then [.Heading 3 (trim (l.drop 3))]
  else if startsWith (str "##") l then [.Heading 2 (trim (l.drop 2))]
  else if startsWith (str "#") l then [.Heading 1 (trim (l.drop 1))]
  else if startsWith (str "=>") l then
    match splitAW (l.drop 2) with
    | [] => []
    | [t] => [.Link (trim t) none]
    | t :: ts => [.Link (trim t) (some (trim (List.intercalate [' '] ts)))]
  else [.Text l]

/-- The line loop of `gemtext::parse`.  `inPre` is the single toggle bit
(`collect_preformatted`), `buf` the preformatted buffer.  A line whose first
three characters are the backtick fence flips the bit, emitting one
`Preformatted` node (body: buffered lines, trailing whitespace trimmed) on
the on-to-off transition; while the bit is set every other line is buffered
verbatim plus a newline.  A block still open when the input ends is dropped. -/
def parseLines : List Str → Bool → Str → List Node
  | [], _, _ => []
  | l :: ls, inPre, buf =>
    if startsWith (str "```") l then
      if inPre then .Preformatted (trimEnd buf) :: parseLines ls false []
      else parseLines ls true buf
    else if inPre then parseLines ls true (buf ++ l ++ ['\n'])
    else parseLine l ++ parseLines ls inPre buf

/-- The `gemtext::parse` function. -/
def parse (doc : Str) : List Node := parseLines (rustLines doc) false []

/-! ## Round-trip machinery for `parse` and `render` -/

/-- The physical lines one node renders to. -/
def nodeLines : Node → List Str
  | .Text body => [(if isSpecialText body then [' '] else []) ++ body]
  | .Link target none => [str "=> " ++ target]
  | .Link target (some name) => [str "=> " ++ target ++ ' ' :: name]
  | .Preformatted body => str "```" :: splitOnNl body ++ [str "```"]
  | .Heading level body => [List.replicate level '#' ++ ' ' :: body]
  | .ListItem body => [str "* " ++ body]
  | .Quote body => [str "> " ++ body]

/-- What a node comes back as after render and re-parse: the identity,
except that a text body colliding with a reserved line start gains the
escaping space. -/
def escapeNode : Node → Node
  | .Text body => .Text ((if isSpecialText body then [' '] else []) ++ body)
  | n => n

/-- Well-formedness of a node for the round-trip: string contents carry no
line breaks, fields that the parser trims are already trimmed, link targets
are non-empty and whitespace-free, link names are normalized words joined
by single spaces, heading levels are one to three, and preformatted bodies
contain no fence line, no carriage return and no trailing whitespace. -/
def wfNode : Node → Prop
  | .Text body => '\n' ∉ body ∧ '\r' ∉ body
  | .Link target none => target ≠ [] ∧ ∀ c ∈ target, isWs c = false
  | .Link target (some name) =>
      (target ≠ [] ∧ ∀ c ∈ target, isWs c = false) ∧
      ('\n' ∉ name ∧ '\r' ∉ name) ∧ trimStart name = name ∧ trimEnd name = name ∧
      splitAW name ≠ [] ∧ List.intercalate [' '] (splitAW name) = name
  | .Preformatted body =>
      '\r' ∉ body ∧ trimEnd body = body ∧
      ∀ l ∈ splitOnNl body, startsWith (str "```") l = false
  | .Heading level body =>
      (level = 1 ∨ level = 2 ∨ level = 3) ∧ ('\n' ∉ body ∧ '\r' ∉ body) ∧
      trimStart body = body ∧ trimEnd body = body
  | .ListItem body =>
      ('\n' ∉ body ∧ '\r' ∉ body) ∧ trimStart body = body ∧ trimEnd body = body
  | .Quote body =>
      ('\n' ∉ body ∧ '\r' ∉ body) ∧ trimStart body = body ∧ trimEnd body = body

instance instDecidableWfNode (n : Node) : Decidable (wfNode n) :=
  match n with
  | .Text _ => by unfold wfNode; infer_instance
  | .Link _ none => by unfold wfNode; infer_instance
  | .Link _ (some _) => by unfold wfNode; infer_instance
  | .Preformatted _ => by unfold wfNode; infer_instance
  | .Heading _ _ => by unfold wfNode; infer_instance
  | .ListItem _ => by unfold wfNode; infer_instance
  | .Quote _ => by unfold wfNode; infer_instance

/-! ## The crawl engine, from `src/main.rs` -/

/-- The `url::Url` value, abstracted to the fields the crawler reads and
writes: scheme, host (optional, as `host_str()` returns — a cannot-be-a-base
URL such as gemini:foo has none), optional port, and the remainder of the
address. -/
structure Url where
  scheme : Str
  host : Option Str
  port : Option Nat
  path : Str
  deriving DecidableEq, Repr

/-- Model of `url::Url::to_string`, the canonical serialization used as the
entry-table key: host-carrying URLs serialize as scheme://host[:port]path,
hostless (cannot-be-a-base) ones as scheme:path. -/
def urlToStr (u : Url) : Str :=
  match u.host with
  | some h =>
    u.scheme ++ str "://" ++ h ++
      (match u.port with
       | some p => ':' :: Nat.toDigits 10 p
       | none => []) ++ u.path
  | none => u.scheme ++ ':' :: u.path

/-- Whether `url::Url::set_port` succeeds on this URL: it fails (returns an
error) when the URL has no host (a cannot-be-a-base URL), has the empty
host, or has the file scheme. -/
def setPortOk (u : Url) : Bool :=
  match u.host with
  | none => false
  | some h => if h = [] then false else if u.scheme = str "file" then false else true

/-- The statement `let _ = ur.set_port(p)` of `src/main.rs`: set the port
when the URL can carry one, and silently ignore the failure — the URL is
left unchanged — when it cannot. -/
def set_port (u : Url) (p : Option Nat) : Url :=
  if setPortOk u then { u with port := p } else u

/-- The `url::ParseError` type, reduced to the one variant `parse_url` inspects plus
an opaque remainder. -/
inductive PErr
  | relativeUrlWithoutBase
  | otherErr (code : Nat)
  deriving DecidableEq, Repr

/-- The error cases of `parse_url`, one per error site in the source:
propagating a failed join, the relative-without-base message, a fatal
parse failure, and the invalid-scheme message. -/
inductive ResolveErr
  | parseFail (e : PErr)
  | joinFail (e : PErr)
  | noBase
  | badScheme
  deriving DecidableEq, Repr

/-- The external `url` crate, abstracted as oracles for absolute parsing
(`Url::parse`) and joining against a base (`Url::join`).  The fallibility
of `set_port` is carried by the parsed `Url` value itself (its optional
host, see `setPortOk`), so an oracle can return a cannot-be-a-base URL on
which setting the port fails, exactly as the crate does for inputs such as
gemini:foo. -/
structure UrlCrate where
  parse : Str → Except PErr Url
  join : Url → Str → Except PErr Url

/-- The first stage of `parse_url` from `src/main.rs` (the `match` bound to
`ur`): try an absolute parse; fall back to joining against the base exactly
on a relative-without-base failure; propagate any other failure. -/
def rawResolve (C : UrlCrate) (base_u : Option Url) (u : Str) : Except ResolveErr Url :=
  match C.parse u with
  | .ok v => .ok v
  | .error .relativeUrlWithoutBase =>
    match base_u with
    | some base =>
      match C.join base u with
      | .ok v => .ok v
      | .error e => .error (.joinFail e)
    | none => .error .noBase
  | .error e => .error (.parseFail e)

/-- Function `parse_url` from `src/main.rs`: resolve the raw string; when
no port is present, attempt to set the default port 1965, ignoring a
`set_port` failure (the `let _ = ur.set_port(Some(1965))` line); reject any
scheme other than gemini. -/
def parse_url (C : UrlCrate) (base_u : Option Url) (u : Str) : Except ResolveErr Url :=
  match rawResolve C base_u u with
  | .error e => .error e
  | .ok ur =>
    let ur := if ur.port.isNone then set_port ur (some 1965) else ur
    if ur.scheme ≠ str "gemini" then .error .badScheme else .ok ur

/-- Struct `UrlInfo` from `src/main.rs`: the per-address crawl entry. -/
structure UrlInfo where
  referred_from : List Str
  timed_out : Bool
  malformed_response : Bool
  response_code : Nat
  metatext : Str
  deriving DecidableEq, Repr

/-- Constructor `UrlInfo::new`: a fresh entry with a single referrer. -/
def UrlInfo.new (ref : Str) : UrlInfo :=
  { referred_from := [ref], timed_out := false, malformed_response := false,
    response_code := 0, metatext := [] }

/-- The entry table `HashMap<String, UrlInfo>`, modelled as an association
list whose keys are unique in every state the crawler reaches. -/
abbrev Table := List (Str × UrlInfo)

/-- Lookup as in `HashMap::get` and `get_mut`. -/
def findInfo (k : Str) : Table → Option UrlInfo
  | [] => none
  | (k2, i) :: t => if k2 = k then some i else findInfo k t

/-- Insertion as in `HashMap::insert`: replace the binding when the key is present,
otherwise add it. -/
def insertInfo (k : Str) (i : UrlInfo) : Table → Table
  | [] => [(k, i)]
  | (k2, j) :: t => if k2 = k then (k2, i) :: t else (k2, j) :: insertInfo k i t

/-- In-place mutation through `get_mut`: apply `f` to the entry at `k`. -/
def updateInfo (k : Str) (f : UrlInfo → UrlInfo) : Table → Table
  | [] => []
  | (k2, j) :: t => if k2 = k then (k2, f j) :: t else (k2, j) :: updateInfo k f t

/-- Membership as in `HashMap::contains_key`. -/
def containsKey (k : Str) (t : Table) : Bool := (findInfo k t).isSome

/-- Function `extract_urls` from `src/main.rs`: reinterpret the raw bytes as
characters one per byte, parse the gemtext, and resolve every link target
against the base address, silently dropping the ones that fail. -/
def extract_urls (C : UrlCrate) (base_url : Url) (data : List Nat) : List Url :=
  let data_s : Str := data.map Char.ofNat
  (parse data_s).filterMap fun node =>
    match node with
    | .Link target _ => (parse_url C (some base_url) target).toOption
    | _ => none

/-- The loop inside `handle_gemtext` over the extracted urls: a new address
gets a fresh entry (referrer = the page it was found on) and is pushed on
the queue; a known address only has the referrer appended. -/
def handleUrls (base_url : Url) : Table → List Url → List Url → Table × List Url
  | entries, queue, [] => (entries, queue)
  | entries, queue, url :: rest =>
    if containsKey (urlToStr url) entries then
      handleUrls base_url
        (updateInfo (urlToStr url)
          (fun i => { i with referred_from := i.referred_from ++ [urlToStr base_url] }) entries)
        queue rest
    else
      handleUrls base_url
        (insertInfo (urlToStr url) (UrlInfo.new (urlToStr base_url)) entries)
        (queue ++ [url]) rest

/-- Function `handle_gemtext` from `src/main.rs`. -/
def handle_gemtext (C : UrlCrate) (entries : Table) (queue : List Url)
    (base_url : Url) (data : List Nat) : Table × List Url :=
  handleUrls base_url entries queue (extract_urls C base_url data)

/-- The seeding loop of `crawl` (`src/main.rs` lines 78 to 81): every url
extracted from the start page is pushed onto the still-empty queue and
unconditionally inserted into the entry table, with the start address as
referrer. -/
def seedFrontier (startKey : Str) : Table → List Url → List Url → Table × List Url
  | entries, queue, [] => (entries, queue)
  | entries, queue, url :: rest =>
    seedFrontier startKey
      (insertInfo (urlToStr url) (UrlInfo.new startKey) entries)
      (queue ++ [url]) rest

/-- The pre-loop phase of `crawl`: fetch the start page (its bytes are given
as `startResponse`) and seed the frontier from its links. -/
def crawlInit (C : UrlCrate) (entries : Table) (start : Url)
    (startResponse : List Nat) : Table × List Url :=
  seedFrontier (urlToStr start) entries [] (extract_urls C start startResponse)

/-- Is a byte a UTF-8 continuation byte? -/
def contByte (b : Nat) : Bool := 0x80 ≤ b && b ≤ 0xBF

/-- Strict UTF-8 decoding as performed by `std::str::from_utf8`: rejects
truncated sequences, stray continuation bytes, overlong encodings, the
surrogate range and code points past U+10FFFF. -/
def utf8Decode : List Nat → Option Str
  | [] => some []
  | b :: rest =>
    if b ≤ 0x7F then
      (utf8Decode rest).map (fun s => Char.ofNat b :: s)
    else if 0xC2 ≤ b && b ≤ 0xDF then
      match rest with
      | c1 :: r =>
        if contByte c1 then
          (utf8Decode r).map (fun s => Char.ofNat ((b - 0xC0) * 0x40 + (c1 - 0x80)) :: s)
        else none
      | _ => none
    else if 0xE0 ≤ b && b ≤ 0xEF then
      match rest with
      | c1 :: c2 :: r =>
        let lo := if b = 0xE0 then 0xA0 else 0x80
        let hi := if b = 0xED then 0x9F else 0xBF
        if (lo ≤ c1 && c1 ≤ hi) && contByte c2 then
          (utf8Decode r).map (fun s =>
            Char.ofNat ((b - 0xE0) * 0x1000 + (c1 - 0x80) * 0x40 + (c2 - 0x80)) :: s)
        else none
      | _ => none
    else if 0xF0 ≤ b && b ≤ 0xF4 then
      match rest with
      | c1 :: c2 :: c3 :: r =>
        let lo := if b = 0xF0 then 0x90 else 0x80
        let hi := if b = 0xF4 then 0x8F else 0xBF
        if ((lo ≤ c1 && c1 ≤ hi) && contByte c2) && contByte c3 then
          (utf8Decode r).map (fun s =>
            Char.ofNat ((b - 0xF0) * 0x40000 + (c1 - 0x80) * 0x1000 +
              (c2 - 0x80) * 0x40 + (c3 - 0x80)) :: s)
        else none
      | _ => none
    else none

/-- Rust `str::is_char_boundary` at byte index `i` of the byte string `bs`
(the byte string is assumed valid UTF-8): true at the end of the string and
in front of any non-continuation byte, false past the end. -/
def isCharBoundary (bs : List Nat) (i : Nat) : Bool :=
  if i = bs.length then true
  else
    match bs.get? i with
    | none => false
    | some b => !contByte b

/-- Is a byte an ASCII digit? -/
def isDigitByte (b : Nat) : Bool := 0x30 ≤ b && b ≤ 0x39

/-- Parsing as `usize::from_str` applied to the two-byte header slice: two digits, or a
plus sign followed by one digit. -/
def parseCode2 : List Nat → Option Nat
  | [b0, b1] =>
    if isDigitByte b0 && isDigitByte b1 then some ((b0 - 0x30) * 10 + (b1 - 0x30))
    else if b0 = 0x2B && isDigitByte b1 then some (b1 - 0x30)
    else none
  | _ => none

/-- The outcome of `timeout(duration, get(..))` for one fetch. -/
inductive FetchOutcome
  | timedOut
  | fetchError
  | success (response : List Nat)
  deriving DecidableEq, Repr

/-- The result of one loop iteration: either the new crawler state, or a
panic of the original program (an out-of-bounds string slice or a failed
unwrap). -/
inductive StepOut
  | panicked
  | ok (entries : Table) (queue : List Url)
  deriving DecidableEq, Repr

/-- The body of the main crawl loop (`src/main.rs` lines 95 to 167), given
the already-popped link and the fetch outcome.  Mirrors the source order:
entry lookup (panics when absent), timeout and transport-error handling,
the empty-response skip, UTF-8 validation, header slicing (`header[0..=1]`
and `header[3..]` panic when the header is too short or the index is not a
character boundary), response-code parsing, and the status-code dispatch in
which only code 20 with a text/gemini meta extracts links. -/
def crawlStep (C : UrlCrate) (entries : Table) (queue : List Url)
    (link : Url) (res : FetchOutcome) : StepOut :=
  match findInfo (urlToStr link) entries with
  | none => .panicked
  | some _ =>
    match res with
    | .timedOut =>
      .ok (updateInfo (urlToStr link) (fun i => { i with timed_out := true }) entries) queue
    | .fetchError => .ok entries queue
    | .success response =>
      if response.length = 0 then .ok entries queue
      else
        match utf8Decode response with
        | none =>
          .ok (updateInfo (urlToStr link)
            (fun i => { i with malformed_response := true }) entries) queue
        | some _ =>
          let header := response.takeWhile (fun b => b ≠ 0x0A)
          if !isCharBoundary header 2 then .panicked
          else
            match parseCode2 (header.take 2) with
            | none =>
              .ok (updateInfo (urlToStr link)
                (fun i => { i with malformed_response := true }) entries) queue
            | some response_code =>
              if !isCharBoundary header 3 then .panicked
              else
                let metatext := (utf8Decode (header.drop 3)).getD []
                let entries2 := updateInfo (urlToStr link)
                  (fun i => { i with response_code := response_code, metatext := metatext })
                  entries
                if response_code = 20 && startsWith (str "text/gemini") metatext then
                  let r := handle_gemtext C entries2 queue link response
                  .ok r.1 r.2
                else .ok entries2 queue

/-! ## Derived state notions and concrete instances used in the theorems -/

/-- How many urls of a list serialize to the key `k`. -/
def countU (k : Str) (l : List Url) : Nat := l.countP (fun u => decide (urlToStr u = k))

/-- The length of the referrer list stored at key `k`, zero when the key is
absent. -/
def refLen (k : Str) (t : Table) : Nat :=
  match findInfo k t with
  | some i => i.referred_from.length
  | none => 0

/-- The keys of the entry table, in order. -/
def tableKeys (t : Table) : List Str := t.map Prod.fst

/-- A concrete address, gemini://h:1965/a. -/
def exUrlA : Url :=
  { scheme := str "gemini", host := some (str "h"), port := some 1965,
    path := str "/a" }

/-- A concrete start address, gemini://s:1965/. -/
def exStart : Url :=
  { scheme := str "gemini", host := some (str "s"), port := some 1965,
    path := str "/" }

/-- A concrete parse result with a host but no port, used to exercise port
defaulting. -/
def exUrlNP : Url :=
  { scheme := str "gemini", host := some (str "h"), port := none, path := str "/" }

/-- The parse result of the cannot-be-a-base input gemini:foo: gemini
scheme, no host, no port. -/
def cbUrl : Url :=
  { scheme := str "gemini", host := none, port := none, path := str "foo" }

/-- A url-crate oracle behaving as the real crate does on the absolute
input gemini:foo: the parse succeeds with the hostless, portless `cbUrl`. -/
def cbCrate : UrlCrate :=
  { parse := fun s => if s = str "gemini:foo" then .ok cbUrl
      else .error (.otherErr 0),
    join := fun _ _ => .error (.otherErr 1) }

instance instDecEqExcept {ε α : Type} [DecidableEq ε] [DecidableEq α] :
    DecidableEq (Except ε α) := fun a b =>
  match a, b with
  | .ok x, .ok y =>
    if h : x = y then .isTrue (by rw [h]) else .isFalse (fun e => h (by injection e))
  | .ok _, .error _ => .isFalse (fun e => Except.noConfusion e)
  | .error _, .ok _ => .isFalse (fun e => Except.noConfusion e)
  | .error x, .error y =>
    if h : x = y then .isTrue (by rw [h]) else .isFalse (fun e => h (by injection e))

/-- A url-crate oracle that resolves exactly the serialization of `exUrlA`. -/
def exCrate : UrlCrate :=
  { parse := fun s => if s = str "gemini://h:1965/a" then .ok exUrlA
      else .error (.otherErr 0),
    join := fun _ _ => .error (.otherErr 1) }

/-- A url-crate oracle whose absolute parse always yields the portless
`exUrlNP`. -/
def exCrateNP : UrlCrate :=
  { parse := fun _ => .ok exUrlNP, join := fun _ _ => .error (.otherErr 1) }

/-- Bytes of a start page that links the same address twice. -/
def exStartPage : List Nat :=
  (str "=> gemini://h:1965/a\n=> gemini://h:1965/a\n").map Char.toNat

/-- A crawl entry recording an earlier successful fetch (code 20). -/
def exLoadedInfo : UrlInfo :=
  { referred_from := [str "x"], timed_out := false, malformed_response := false,
    response_code := 20, metatext := str "text/gemini" }

/-- A loaded checkpoint in which the address of `exUrlA` was already
fetched successfully. -/
def exLoaded : Table := [(urlToStr exUrlA, exLoadedInfo)]

/-- A concrete well-formed document covering every node kind, including a
text body that collides with a reserved line start. -/
def exNodes : List Node :=
  [Node.Text (str "#1 ok"), Node.Link (str "/a") (some (str "Go home")),
   Node.Link (str "/") none, Node.Preformatted (str "X\n Y"),
   Node.Heading 2 (str "head"), Node.ListItem (str "item"),
   Node.Quote (str "quoted"), Node.Text (str "plain"), Node.Text (str "")]

/-! ## Basic facts about the string helpers -/

theorem splitOnNl_ne_nil (s : Str) : splitOnNl s ≠ [] := by
  cases s with
  | nil => simp [splitOnNl]
  | cons c cs =>
    simp only [splitOnNl]
    split
    · simp
    · split <;> simp

theorem splitOnNl_cons_nl (cs : Str) : splitOnNl ('\n' :: cs) = [] :: splitOnNl cs := by
  simp [splitOnNl]

theorem splitOnNl_cons_other (c : Char) (cs : Str) (hc : c ≠ '\n') :
    splitOnNl (c :: cs) =
      match splitOnNl cs with
      | [] => [[c]]
      | l :: ls => (c :: l) :: ls := by
  simp [splitOnNl, hc]

theorem splitOnNl_append (xs ys : Str) :
    splitOnNl (xs ++ '\n' :: ys) = splitOnNl xs ++ splitOnNl ys := by
  induction xs with
  | nil => simp [splitOnNl_cons_nl, splitOnNl]
  | cons c cs ih =>
    by_cases hc : c = '\n'
    · subst hc
      rw [List.cons_append, splitOnNl_cons_nl, splitOnNl_cons_nl, ih, List.cons_append]
    · rw [List.cons_append, splitOnNl_cons_other c _ hc, splitOnNl_cons_other c _ hc, ih]
      cases h : splitOnNl cs with
      | nil => exact absurd h (splitOnNl_ne_nil cs)
      | cons l ls => rfl

theorem splitOnNl_no_nl (l : Str) (h : '\n' ∉ l) : splitOnNl l = [l] := by
  induction l with
  | nil => rfl
  | cons c cs ih =>
    have hc : c ≠ '\n' := fun e => h (e ▸ List.mem_cons_self c cs)
    have hcs := ih (fun m => h (List.mem_cons_of_mem c m))
    simp [splitOnNl, hc, hcs]

theorem mem_of_mem_splitOnNl {s l : Str} {c : Char}
    (hl : l ∈ splitOnNl s) (hc : c ∈ l) : c ∈ s := by
  induction s generalizing l with
  | nil =>
    simp [splitOnNl] at hl
    subst hl
    simp at hc
  | cons d ds ih =>
    by_cases hd : d = '\n'
    · subst hd
      rw [splitOnNl_cons_nl] at hl
      rcases List.mem_cons.mp hl with h | h
      · subst h; simp at hc
      · exact List.mem_cons_of_mem _ (ih h hc)
    · rw [splitOnNl_cons_other d ds hd] at hl
      cases h : splitOnNl ds with
      | nil => exact absurd h (splitOnNl_ne_nil ds)
      | cons x xs =>
        rw [h] at hl
        simp only [List.mem_cons] at hl
        rcases hl with h1 | h1
        · subst h1
          rcases List.mem_cons.mp hc with rfl | hc2
          · exact List.mem_cons_self _ _
          · have hx : x ∈ splitOnNl ds := h ▸ List.mem_cons_self x xs
            exact List.mem_cons_of_mem _ (ih hx hc2)
        · have hx : l ∈ splitOnNl ds := h ▸ List.mem_cons_of_mem x h1
          exact List.mem_cons_of_mem _ (ih hx hc)

theorem flatten_splitOnNl (b : Str) :
    ((splitOnNl b).map (fun l => l ++ ['\n'])).flatten = b ++ ['\n'] := by
  induction b with
  | nil => rfl
  | cons c cs ih =>
    by_cases hc : c = '\n'
    · subst hc
      rw [splitOnNl_cons_nl]
      simp only [List.map_cons, List.flatten_cons, ih]
      simp
    · rw [splitOnNl_cons_other c cs hc]
      cases h : splitOnNl cs with
      | nil => exact absurd h (splitOnNl_ne_nil cs)
      | cons x xs =>
        rw [h] at ih
        simp only [List.map_cons, List.flatten_cons] at ih ⊢
        simp only [List.cons_append, List.append_assoc] at ih ⊢
        rw [ih]

theorem aux_getLast?_mem {α : Type} {l : List α} {a : α} (h : l.getLast? = some a) :
    a ∈ l := by
  induction l with
  | nil => simp at h
  | cons x xs ih =>
    cases xs with
    | nil =>
      simp [List.getLast?] at h
      subst h
      exact List.mem_cons_self _ _
    | cons y ys =>
      rw [List.getLast?_cons_cons] at h
      exact List.mem_cons_of_mem _ (ih h)

theorem aux_getLast?_append {α : Type} (A B : List α) (h : B ≠ []) :
    (A ++ B).getLast? = B.getLast? := by
  induction A with
  | nil => rfl
  | cons a as ih =>
    rw [List.cons_append, ← ih]
    cases hab : as ++ B with
    | nil => exact absurd (List.append_eq_nil.mp hab).2 h
    | cons x xs => exact List.getLast?_cons_cons

theorem aux_dropLast_append {α : Type} (A B : List α) (h : B ≠ []) :
    (A ++ B).dropLast = A ++ B.dropLast := by
  induction A with
  | nil => rfl
  | cons a as ih =>
    rw [List.cons_append]
    cases hab : as ++ B with
    | nil => exact absurd (List.append_eq_nil.mp hab).2 h
    | cons x xs =>
      show a :: (x :: xs).dropLast = (a :: as) ++ B.dropLast
      rw [← hab, ih]
      rfl

theorem aux_map_self {α : Type} (f : α → α) (l : List α) (h : ∀ a ∈ l, f a = a) :
    l.map f = l := by
  induction l with
  | nil => rfl
  | cons x xs ih =>
    rw [List.map_cons, h x (List.mem_cons_self x xs),
      ih (fun a ha => h a (List.mem_cons_of_mem x ha))]

theorem stripCr_eq_self {l : Str} (h : '\r' ∉ l) : stripCr l = l := by
  unfold stripCr
  by_cases hl : l.getLast? = some '\r'
  · exact absurd (aux_getLast?_mem hl) h
  · rw [if_neg hl]

theorem rustLines_nil : rustLines [] = [] := rfl

theorem rustLines_append (b s : Str) :
    rustLines (b ++ '\n' :: s) = (splitOnNl b).map stripCr ++ rustLines s := by
  unfold rustLines
  rw [splitOnNl_append]
  have hne := splitOnNl_ne_nil s
  rw [aux_getLast?_append _ _ hne]
  by_cases h : (splitOnNl s).getLast? = some []
  · rw [if_pos h, if_pos h, aux_dropLast_append _ _ hne, List.map_append]
  · rw [if_neg h, if_neg h, List.map_append]

theorem rustLines_single (l s : Str) (hnl : '\n' ∉ l) (hcr : '\r' ∉ l) :
    rustLines (l ++ '\n' :: s) = l :: rustLines s := by
  rw [rustLines_append, splitOnNl_no_nl l hnl]
  simp [stripCr_eq_self hcr]

theorem trimEnd_cons (c : Char) (cs : Str) :
    trimEnd (c :: cs) =
      match trimEnd cs with
      | [] => if isWs c = true then [] else [c]
      | r => c :: r := rfl

theorem trimEnd_append_ws (s : Str) (w : Char) (hw : isWs w = true) :
    trimEnd (s ++ [w]) = trimEnd s := by
  induction s with
  | nil => simp [trimEnd, hw]
  | cons c cs ih =>
    rw [List.cons_append, trimEnd_cons, ih]
    rfl

theorem trimEnd_cons_keep (c : Char) (s : Str) (hs : trimEnd s = s) (hne : s ≠ []) :
    trimEnd (c :: s) = c :: s := by
  rw [trimEnd_cons, hs]
  cases s with
  | nil => exact absurd rfl hne
  | cons x xs => rfl

theorem trim_space_cons (s : Str) (hts : trimStart s = s) (hte : trimEnd s = s) :
    trim (' ' :: s) = s := by
  by_cases hne : s = []
  · subst hne; rfl
  · unfold trim
    rw [trimEnd_cons_keep ' ' s hte hne]
    have : trimStart (' ' :: s) = trimStart s := by
      simp [trimStart, List.dropWhile_cons, show isWs ' ' = true from rfl]
    rw [this, hts]

theorem no_ws_no_nl {s : Str} (h : ∀ c ∈ s, isWs c = false) : '\n' ∉ s := by
  intro m
  have := h '\n' m
  simp [show isWs '\n' = true from rfl] at this

theorem no_ws_no_cr {s : Str} (h : ∀ c ∈ s, isWs c = false) : '\r' ∉ s := by
  intro m
  have := h '\r' m
  simp [show isWs '\r' = true from rfl] at this

theorem no_ws_trimEnd {s : Str} (h : ∀ c ∈ s, isWs c = false) : trimEnd s = s := by
  induction s with
  | nil => rfl
  | cons c cs ih =>
    have hcs := ih (fun a ha => h a (List.mem_cons_of_mem c ha))
    have hc := h c (List.mem_cons_self c cs)
    simp only [trimEnd, hcs]
    cases cs with
    | nil => simp [hc]
    | cons x xs => rfl

theorem no_ws_trimStart {s : Str} (h : ∀ c ∈ s, isWs c = false) : trimStart s = s := by
  cases s with
  | nil => rfl
  | cons c cs =>
    have hc := h c (List.mem_cons_self c cs)
    simp [trimStart, List.dropWhile_cons, hc]

theorem no_ws_trim {s : Str} (h : ∀ c ∈ s, isWs c = false) : trim s = s := by
  unfold trim
  rw [no_ws_trimEnd h, no_ws_trimStart h]

theorem ascii_ws_is_ws {c : Char} (h : isAsciiWs c = true) : isWs c = true := by
  have h2 : (((c.toNat = 32 ∨ c.toNat = 9) ∨ c.toNat = 10) ∨ c.toNat = 12) ∨
      c.toNat = 13 := by
    simpa [isAsciiWs, Bool.or_eq_true, decide_eq_true_eq] using h
  unfold isWs
  rcases h2 with (((h2 | h2) | h2) | h2) | h2 <;> rw [h2] <;> decide

/-! ## Facts about `split_ascii_whitespace` -/

theorem splitAWAux_cons (c : Char) (cs acc : Str) :
    splitAWAux (c :: cs) acc =
      if isAsciiWs c then
        if acc = [] then splitAWAux cs [] else acc :: splitAWAux cs []
      else splitAWAux cs (acc ++ [c]) := rfl

theorem splitAWAux_word (w t acc : Str) (hw : ∀ c ∈ w, isAsciiWs c = false) :
    splitAWAux (w ++ t) acc = splitAWAux t (acc ++ w) := by
  induction w generalizing acc with
  | nil => simp
  | cons c cs ih =>
    have hc := hw c (List.mem_cons_self c cs)
    rw [List.cons_append, splitAWAux_cons]
    simp only [hc, Bool.false_eq_true, if_false]
    rw [ih (acc ++ [c]) (fun a ha => hw a (List.mem_cons_of_mem c ha))]
    simp

theorem splitAWAux_stop (acc : Str) (ha : acc ≠ []) : splitAWAux [] acc = [acc] := by
  simp [splitAWAux, ha]

theorem splitAWAux_break (d : Char) (t acc : Str) (hd : isAsciiWs d = true)
    (ha : acc ≠ []) : splitAWAux (d :: t) acc = acc :: splitAWAux t [] := by
  simp [splitAWAux, hd, ha]

theorem splitAW_ws_cons (d : Char) (t : Str) (hd : isAsciiWs d = true) :
    splitAW (d :: t) = splitAW t := by
  simp [splitAW, splitAWAux, hd]

theorem splitAW_single (w : Str) (hw : ∀ c ∈ w, isAsciiWs c = false) (hne : w ≠ []) :
    splitAW w = [w] := by
  have h2 := splitAWAux_word w [] [] hw
  simp only [List.append_nil, List.nil_append] at h2
  unfold splitAW
  rw [h2, splitAWAux_stop w hne]

theorem splitAW_word_break (w : Str) (d : Char) (t : Str)
    (hw : ∀ c ∈ w, isAsciiWs c = false) (hne : w ≠ []) (hd : isAsciiWs d = true) :
    splitAW (w ++ d :: t) = w :: splitAW t := by
  unfold splitAW
  rw [splitAWAux_word w (d :: t) [] hw]
  simp only [List.nil_append]
  rw [splitAWAux_break d t w hd hne]

/-! ## Round-trip proofs for `parse` and `render` -/

theorem trim_space_eq (s : Str) (hts : trimStart s = s) (hte : trimEnd s = s) :
    trim (' ' :: s) = s := by
  by_cases hne : s = []
  · subst hne; rfl
  · unfold trim
    rw [trimEnd_cons_keep ' ' s hte hne]
    have h2 : trimStart (' ' :: s) = trimStart s := by
      simp [trimStart, List.dropWhile_cons, show isWs ' ' = true from rfl]
    rw [h2, hts]

theorem startsWith_longer_false (a : Char) (p s : Str)
    (h : startsWith [a] s = false) : startsWith (a :: p) s = false := by
  cases s with
  | nil => rfl
  | cons b t =>
    by_cases e : a = b
    · exfalso; simp [startsWith, e] at h
    · simp [startsWith, e]

theorem special_false (body : Str) (h : isSpecialText body = false) :
    startsWith (str "=>") body = false ∧ startsWith (str "```") body = false ∧
    startsWith (str "#") body = false ∧ startsWith (str "*") body = false ∧
    startsWith (str ">") body = false := by
  simp only [isSpecialText, specialStarts, List.any_cons, List.any_nil,
    Bool.or_eq_false_iff] at h
  exact ⟨h.1, h.2.1, h.2.2.1, h.2.2.2.1, h.2.2.2.2.1⟩

theorem not_mem_append {α : Type} {c : α} {A B : List α}
    (hA : c ∉ A) (hB : c ∉ B) : c ∉ A ++ B := by
  intro m
  rcases List.mem_append.mp m with m | m
  · exact hA m
  · exact hB m

/-! Single-line classification facts; each reduces by computation on the
concrete head characters. -/

theorem parseLine_quote (R : Str) : parseLine ('>' :: R) = [.Quote (trim R)] := rfl

theorem parseLine_list (R : Str) : parseLine ('*' :: R) = [.ListItem (trim R)] := rfl

theorem parseLine_h1 (body : Str) :
    parseLine ('#' :: ' ' :: body) = [.Heading 1 (trim (' ' :: body))] := rfl

theorem parseLine_h2 (body : Str) :
    parseLine ('#' :: '#' :: ' ' :: body) = [.Heading 2 (trim (' ' :: body))] := rfl

theorem parseLine_h3 (body : Str) :
    parseLine ('#' :: '#' :: '#' :: ' ' :: body) = [.Heading 3 (trim (' ' :: body))] := rfl

theorem parseLine_space (R : Str) : parseLine (' ' :: R) = [.Text (' ' :: R)] := rfl

theorem parseLine_link (R : Str) :
    parseLine ('=' :: '>' :: R) =
      match splitAW R with
      | [] => []
      | [t] => [.Link (trim t) none]
      | t :: ts => [.Link (trim t) (some (trim (List.intercalate [' '] ts)))] := rfl

theorem parseLine_link_zero (R : Str) (h : splitAW R = []) :
    parseLine ('=' :: '>' :: R) = [] := by
  rw [parseLine_link, h]

theorem parseLine_link_one (R t : Str) (h : splitAW R = [t]) :
    parseLine ('=' :: '>' :: R) = [.Link (trim t) none] := by
  rw [parseLine_link, h]

theorem parseLine_link_many (R t m : Str) (ms : List Str)
    (h : splitAW R = t :: m :: ms) :
    parseLine ('=' :: '>' :: R) =
      [.Link (trim t) (some (trim (List.intercalate [' '] (m :: ms))))] := by
  rw [parseLine_link, h]

theorem parseLines_cons_plain (l : Str) (ls : List Str) (buf : Str)
    (h : startsWith (str "```") l = false) :
    parseLines (l :: ls) false buf = parseLine l ++ parseLines ls false buf := by
  simp [parseLines, h]

theorem parseLines_fence_on (l : Str) (ls : List Str) (buf : Str)
    (h : startsWith (str "```") l = true) :
    parseLines (l :: ls) false buf = parseLines ls true buf := by
  simp [parseLines, h]

theorem parseLines_fence_off (l : Str) (ls : List Str) (buf : Str)
    (h : startsWith (str "```") l = true) :
    parseLines (l :: ls) true buf =
      .Preformatted (trimEnd buf) :: parseLines ls false [] := by
  simp [parseLines, h]

theorem parseLines_inPre (l : Str) (ls : List Str) (buf : Str)
    (h : startsWith (str "```") l = false) :
    parseLines (l :: ls) true buf = parseLines ls true (buf ++ l ++ ['\n']) := by
  simp [parseLines, h]

theorem parseLines_preBlock (bLines rest : List Str) (buf : Str)
    (hb : ∀ l ∈ bLines, startsWith (str "```") l = false) :
    parseLines (bLines ++ str "```" :: rest) true buf =
      .Preformatted (trimEnd (buf ++ (bLines.map (fun l => l ++ ['\n'])).flatten)) ::
        parseLines rest false [] := by
  induction bLines generalizing buf with
  | nil =>
    rw [List.nil_append, parseLines_fence_off (str "```") rest buf rfl]
    simp
  | cons l ls ih =>
    rw [List.cons_append, parseLines_inPre _ _ _ (hb l (List.mem_cons_self l ls))]
    rw [ih (buf ++ l ++ ['\n']) (fun a ha => hb a (List.mem_cons_of_mem l ha))]
    simp [List.append_assoc]

theorem rustLines_push (L s : Str) (hnl : '\n' ∉ L) (hcr : '\r' ∉ L) :
    rustLines ((L ++ ['\n']) ++ s) = L :: rustLines s := by
  have e : (L ++ ['\n']) ++ s = L ++ '\n' :: s := by simp
  rw [e, rustLines_single L s hnl hcr]

theorem render_lines (n : Node) (hn : wfNode n) (s : Str) :
    rustLines (renderNode n ++ s) = nodeLines n ++ rustLines s := by
  cases n with
  | Text body =>
    obtain ⟨hnl, hcr⟩ := hn
    have e : renderNode (.Text body) ++ s =
        (((if isSpecialText body then [' '] else []) ++ body) ++ ['\n']) ++ s := by
      simp [renderNode, List.append_assoc]
    have hmem : ∀ c : Char, c ∉ body →
        c ≠ ' ' → c ∉ (if isSpecialText body then [' '] else ([] : Str)) ++ body := by
      intro c hc hsp
      apply not_mem_append _ hc
      split <;> simp [hsp]
    rw [e, rustLines_push _ s (hmem '\n' hnl (by decide)) (hmem '\r' hcr (by decide))]
    rfl
  | Link target name =>
    cases name with
    | none =>
      obtain ⟨htne, htws⟩ := hn
      have e : renderNode (.Link target none) ++ s =
          ((str "=> " ++ target) ++ ['\n']) ++ s := by
        simp [renderNode, List.append_assoc]
      rw [e, rustLines_push _ s
        (not_mem_append (by decide) (no_ws_no_nl htws))
        (not_mem_append (by decide) (no_ws_no_cr htws))]
      rfl
    | some nm =>
      obtain ⟨⟨htne, htws⟩, ⟨hnnl, hncr⟩, _, _, _, _⟩ := hn
      have hnm : ∀ c : Char, c ∉ nm → c ≠ ' ' → c ∉ (' ' :: nm) := by
        intro c h1 h2 m
        rcases List.mem_cons.mp m with m | m
        · exact h2 m
        · exact h1 m
      have e : renderNode (.Link target (some nm)) ++ s =
          ((str "=> " ++ target ++ ' ' :: nm) ++ ['\n']) ++ s := by
        simp [renderNode, List.append_assoc]
      have hl : '\n' ∉ str "=> " ++ target ++ ' ' :: nm := by
        simp only [List.append_assoc]
        exact not_mem_append (by decide)
          (not_mem_append (no_ws_no_nl htws) (hnm '\n' hnnl (by decide)))
      have hr : '\r' ∉ str "=> " ++ target ++ ' ' :: nm := by
        simp only [List.append_assoc]
        exact not_mem_append (by decide)
          (not_mem_append (no_ws_no_cr htws) (hnm '\r' hncr (by decide)))
      rw [e, rustLines_push _ s hl hr]
      rfl
  | Preformatted body =>
    obtain ⟨hcr, hte, hfence⟩ := hn
    have e : renderNode (.Preformatted body) ++ s =
        str "```" ++ '\n' :: (body ++ '\n' :: (str "```" ++ '\n' :: s)) := by
      simp [renderNode, List.append_assoc]
    have e2 : str "```" ++ '\n' :: (body ++ '\n' :: (str "```" ++ '\n' :: s)) =
        (str "```") ++ '\n' :: (body ++ '\n' :: ((str "```") ++ '\n' :: s)) := rfl
    rw [e, rustLines_single (str "```") _ (by decide) (by decide),
      rustLines_append body _]
    rw [aux_map_self stripCr (splitOnNl body)
      (fun l hl => stripCr_eq_self (fun m => hcr (mem_of_mem_splitOnNl hl m)))]
    rw [rustLines_single (str "```") s (by decide) (by decide)]
    simp [nodeLines, List.append_assoc]
  | Heading level body =>
    obtain ⟨hlv, ⟨hnl, hcr⟩, _, _⟩ := hn
    have e : renderNode (.Heading level body) ++ s =
        ((List.replicate level '#' ++ ' ' :: body) ++ ['\n']) ++ s := by
      simp [renderNode, List.append_assoc]
    have hmr : ∀ c : Char, c ∉ body → c ≠ '#' → c ≠ ' ' →
        c ∉ List.replicate level '#' ++ ' ' :: body := by
      intro c hc h1 h2
      apply not_mem_append
      · intro m; exact h1 (List.eq_of_mem_replicate m)
      · intro m; rcases List.mem_cons.mp m with m | m
        · exact h2 m
        · exact hc m
    rw [e, rustLines_push _ s (hmr '\n' hnl (by decide) (by decide))
      (hmr '\r' hcr (by decide) (by decide))]
    rfl
  | ListItem body =>
    obtain ⟨⟨hnl, hcr⟩, _, _⟩ := hn
    have e : renderNode (.ListItem body) ++ s = ((str "* " ++ body) ++ ['\n']) ++ s := by
      simp [renderNode, List.append_assoc]
    rw [e, rustLines_push _ s (not_mem_append (by decide) hnl)
      (not_mem_append (by decide) hcr)]
    rfl
  | Quote body =>
    obtain ⟨⟨hnl, hcr⟩, _, _⟩ := hn
    have e : renderNode (.Quote body) ++ s = ((str "> " ++ body) ++ ['\n']) ++ s := by
      simp [renderNode, List.append_assoc]
    rw [e, rustLines_push _ s (not_mem_append (by decide) hnl)
      (not_mem_append (by decide) hcr)]
    rfl

theorem ascii_ws_free {target : Str} (h : ∀ c ∈ target, isWs c = false) :
    ∀ c ∈ target, isAsciiWs c = false := by
  intro c hc
  cases hx : isAsciiWs c with
  | false => rfl
  | true =>
    have := ascii_ws_is_ws hx
    rw [h c hc] at this
    exact absurd this (by decide)

theorem parse_nodeLines (n : Node) (hn : wfNode n) (rest : List Str) :
    parseLines (nodeLines n ++ rest) false [] =
      escapeNode n :: parseLines rest false [] := by
  cases n with
  | Text body =>
    obtain ⟨hnl, hcr⟩ := hn
    by_cases hsp : isSpecialText body = true
    · have e : nodeLines (.Text body) ++ rest = (' ' :: body) :: rest := by
        simp [nodeLines, hsp]
      rw [e, parseLines_cons_plain (' ' :: body) rest [] rfl, parseLine_space]
      simp [escapeNode, hsp]
    · have hsp' : isSpecialText body = false := by
        cases h : isSpecialText body
        · rfl
        · exact absurd h hsp
      obtain ⟨hA, hB, hC, hD, hE⟩ := special_false body hsp'
      have hC2 : startsWith (str "##") body = false :=
        startsWith_longer_false '#' _ body hC
      have hC3 : startsWith (str "###") body = false :=
        startsWith_longer_false '#' _ body hC
      have e : nodeLines (.Text body) ++ rest = body :: rest := by
        simp [nodeLines, hsp']
      rw [e, parseLines_cons_plain _ _ _ hB]
      have hpl : parseLine body = [.Text body] := by
        unfold parseLine
        simp [hA, hC, hC2, hC3, hD, hE]
      rw [hpl]
      simp [escapeNode, hsp']
  | Link target name =>
    cases name with
    | none =>
      obtain ⟨htne, htws⟩ := hn
      have e : nodeLines (.Link target none) ++ rest =
          ('=' :: '>' :: (' ' :: target)) :: rest := rfl
      rw [e, parseLines_cons_plain ('=' :: '>' :: (' ' :: target)) rest [] rfl,
        parseLine_link_one (' ' :: target) target
          (by rw [splitAW_ws_cons ' ' target rfl]
              exact splitAW_single target (ascii_ws_free htws) htne)]
      rw [no_ws_trim htws]
      rfl
    | some nm =>
      obtain ⟨⟨htne, htws⟩, ⟨hnnl, hncr⟩, hnts, hnte, hsne, hsint⟩ := hn
      obtain ⟨m, ms, hm⟩ : ∃ m ms, splitAW nm = m :: ms := by
        cases h : splitAW nm with
        | nil => exact absurd h hsne
        | cons a b => exact ⟨a, b, rfl⟩
      have e : nodeLines (.Link target (some nm)) ++ rest =
          ('=' :: '>' :: (' ' :: (target ++ ' ' :: nm))) :: rest := rfl
      have hsplit : splitAW (' ' :: (target ++ ' ' :: nm)) = target :: m :: ms := by
        rw [splitAW_ws_cons ' ' (target ++ ' ' :: nm) rfl,
          splitAW_word_break target ' ' nm (ascii_ws_free htws) htne rfl, hm]
      rw [e, parseLines_cons_plain ('=' :: '>' :: (' ' :: (target ++ ' ' :: nm))) rest [] rfl,
        parseLine_link_many _ target m ms hsplit]
      rw [← hm, hsint, no_ws_trim htws]
      have htrn : trim nm = nm := by unfold trim; rw [hnte, hnts]
      rw [htrn]
      rfl
  | Preformatted body =>
    obtain ⟨hcr, hte, hfence⟩ := hn
    have e : nodeLines (.Preformatted body) ++ rest =
        str "```" :: (splitOnNl body ++ str "```" :: rest) := by
      simp [nodeLines, List.append_assoc]
    rw [e, parseLines_fence_on (str "```") (splitOnNl body ++ str "```" :: rest) [] rfl,
      parseLines_preBlock _ _ _ hfence]
    rw [List.nil_append, flatten_splitOnNl,
      trimEnd_append_ws body '\n' rfl, hte]
    rfl
  | Heading level body =>
    obtain ⟨hlv, ⟨hnl, hcr⟩, hts, hte⟩ := hn
    rcases hlv with rfl | rfl | rfl
    · have e : nodeLines (.Heading 1 body) ++ rest =
          ('#' :: ' ' :: body) :: rest := rfl
      rw [e, parseLines_cons_plain ('#' :: ' ' :: body) rest [] rfl, parseLine_h1,
        trim_space_eq body hts hte]
      rfl
    · have e : nodeLines (.Heading 2 body) ++ rest =
          ('#' :: '#' :: ' ' :: body) :: rest := rfl
      rw [e, parseLines_cons_plain ('#' :: '#' :: ' ' :: body) rest [] rfl, parseLine_h2,
        trim_space_eq body hts hte]
      rfl
    · have e : nodeLines (.Heading 3 body) ++ rest =
          ('#' :: '#' :: '#' :: ' ' :: body) :: rest := rfl
      rw [e, parseLines_cons_plain ('#' :: '#' :: '#' :: ' ' :: body) rest [] rfl,
        parseLine_h3, trim_space_eq body hts hte]
      rfl
  | ListItem body =>
    obtain ⟨⟨hnl, hcr⟩, hts, hte⟩ := hn
    have e : nodeLines (.ListItem body) ++ rest = ('*' :: ' ' :: body) :: rest := rfl
    rw [e, parseLines_cons_plain ('*' :: ' ' :: body) rest [] rfl, parseLine_list,
      trim_space_eq body hts hte]
    rfl
  | Quote body =>
    obtain ⟨⟨hnl, hcr⟩, hts, hte⟩ := hn
    have e : nodeLines (.Quote body) ++ rest = ('>' :: ' ' :: body) :: rest := rfl
    rw [e, parseLines_cons_plain ('>' :: ' ' :: body) rest [] rfl, parseLine_quote,
      trim_space_eq body hts hte]
    rfl

theorem parse_render_escape (nodes : List Node) (h : ∀ n ∈ nodes, wfNode n) :
    parse (render nodes) = nodes.map escapeNode := by
  induction nodes with
  | nil => rfl
  | cons n ns ih =>
    show parseLines (rustLines (renderNode n ++ render ns)) false [] = _
    rw [render_lines n (h n (List.mem_cons_self n ns)) (render ns),
      parse_nodeLines n (h n (List.mem_cons_self n ns)) (rustLines (render ns))]
    have ih2 : parseLines (rustLines (render ns)) false [] = ns.map escapeNode :=
      ih (fun a ha => h a (List.mem_cons_of_mem n ha))
    rw [ih2]
    rfl


/-! ## Facts about the entry table and url counting -/

theorem findInfo_update_self (k : Str) (f : UrlInfo → UrlInfo) (t : Table) :
    findInfo k (updateInfo k f t) = (findInfo k t).map f := by
  induction t with
  | nil => rfl
  | cons p rest ih =>
    obtain ⟨k2, i⟩ := p
    by_cases h : k2 = k
    · simp [updateInfo, findInfo, h]
    · simp [updateInfo, findInfo, h, ih]

theorem findInfo_update_other (k k2 : Str) (f : UrlInfo → UrlInfo) (t : Table)
    (h : k2 ≠ k) : findInfo k (updateInfo k2 f t) = findInfo k t := by
  induction t with
  | nil => rfl
  | cons p rest ih =>
    obtain ⟨k3, i⟩ := p
    by_cases h3 : k3 = k2
    · subst h3
      simp [updateInfo, findInfo, h, ih]
    · by_cases h4 : k3 = k
      · subst h4
        simp [updateInfo, findInfo, h3, Ne.symm h]
      · simp [updateInfo, findInfo, h3, h4, ih]

theorem tableKeys_update (k : Str) (f : UrlInfo → UrlInfo) (t : Table) :
    tableKeys (updateInfo k f t) = tableKeys t := by
  induction t with
  | nil => rfl
  | cons p rest ih =>
    obtain ⟨k2, i⟩ := p
    by_cases h : k2 = k
    · simp [updateInfo, tableKeys, h]
    · simp only [updateInfo, tableKeys, if_neg h, List.map_cons]
      simpa [tableKeys] using ih

theorem containsKey_update (k k2 : Str) (f : UrlInfo → UrlInfo) (t : Table) :
    containsKey k (updateInfo k2 f t) = containsKey k t := by
  by_cases h : k2 = k
  · subst h
    unfold containsKey
    rw [findInfo_update_self]
    cases findInfo k2 t <;> rfl
  · unfold containsKey
    rw [findInfo_update_other k k2 f t h]

theorem findInfo_insert_self (k : Str) (i : UrlInfo) (t : Table) :
    findInfo k (insertInfo k i t) = some i := by
  induction t with
  | nil => simp [insertInfo, findInfo]
  | cons p rest ih =>
    obtain ⟨k2, j⟩ := p
    by_cases h : k2 = k
    · simp [insertInfo, findInfo, h]
    · simp [insertInfo, findInfo, h, ih]

theorem findInfo_insert_other (k k2 : Str) (i : UrlInfo) (t : Table) (h : k2 ≠ k) :
    findInfo k (insertInfo k2 i t) = findInfo k t := by
  induction t with
  | nil => simp [insertInfo, findInfo, h]
  | cons p rest ih =>
    obtain ⟨k3, j⟩ := p
    by_cases h3 : k3 = k2
    · subst h3
      simp [insertInfo, findInfo, h, ih]
    · by_cases h4 : k3 = k
      · subst h4
        simp [insertInfo, findInfo, h3, Ne.symm h]
      · simp [insertInfo, findInfo, h3, h4, ih]

theorem containsKey_insert (k k2 : Str) (i : UrlInfo) (t : Table)
    (h : containsKey k t = true) : containsKey k (insertInfo k2 i t) = true := by
  by_cases h2 : k2 = k
  · subst h2
    unfold containsKey
    rw [findInfo_insert_self]
    rfl
  · unfold containsKey
    rw [findInfo_insert_other k k2 i t h2]
    exact h

theorem containsKey_insert_self (k : Str) (i : UrlInfo) (t : Table) :
    containsKey k (insertInfo k i t) = true := by
  unfold containsKey
  rw [findInfo_insert_self]
  rfl

theorem tableKeys_insert_new (k : Str) (i : UrlInfo) (t : Table)
    (h : findInfo k t = none) : tableKeys (insertInfo k i t) = tableKeys t ++ [k] := by
  induction t with
  | nil => rfl
  | cons p rest ih =>
    obtain ⟨k2, j⟩ := p
    by_cases h2 : k2 = k
    · rw [findInfo, if_pos h2] at h
      exact absurd h (by simp)
    · rw [findInfo, if_neg h2] at h
      simp only [insertInfo, if_neg h2, tableKeys, List.map_cons, List.cons_append]
      simpa [tableKeys] using ih h

theorem containsKey_mem_keys (k : Str) (t : Table) (h : containsKey k t = true) :
    k ∈ tableKeys t := by
  induction t with
  | nil => simp [containsKey, findInfo] at h
  | cons p rest ih =>
    obtain ⟨k2, j⟩ := p
    by_cases h2 : k2 = k
    · subst h2; exact List.mem_cons_self _ _
    · rw [containsKey, findInfo, if_neg h2] at h
      exact List.mem_cons_of_mem _ (ih h)

theorem not_containsKey_not_mem (k : Str) (t : Table)
    (h : containsKey k t = false) : k ∉ tableKeys t := by
  induction t with
  | nil => simp [tableKeys]
  | cons p rest ih =>
    obtain ⟨k2, j⟩ := p
    by_cases h2 : k2 = k
    · rw [containsKey, findInfo, if_pos h2] at h
      exact absurd h (by simp)
    · rw [containsKey, findInfo, if_neg h2] at h
      intro m
      rcases List.mem_cons.mp m with m | m
      · exact h2 m.symm
      · exact ih h m

theorem containsKey_false_findInfo (k : Str) (t : Table)
    (h : containsKey k t = false) : findInfo k t = none := by
  unfold containsKey at h
  cases hf : findInfo k t with
  | none => rfl
  | some i => rw [hf] at h; exact absurd h (by simp)

theorem countU_nil (k : Str) : countU k [] = 0 := rfl

theorem countU_cons (k : Str) (u : Url) (l : List Url) :
    countU k (u :: l) = (if urlToStr u = k then 1 else 0) + countU k l := by
  unfold countU
  rw [List.countP_cons]
  by_cases h : urlToStr u = k
  · simp [h, Nat.add_comm]
  · simp [h]

theorem countU_append_one (k : Str) (l : List Url) (u : Url) :
    countU k (l ++ [u]) = countU k l + (if urlToStr u = k then 1 else 0) := by
  unfold countU
  rw [List.countP_append]
  by_cases h : urlToStr u = k <;> simp [List.countP_cons, h]

theorem countU_pos_mem (k : Str) (l : List Url) (h : 0 < countU k l) :
    ∃ u ∈ l, urlToStr u = k := by
  unfold countU at h
  rcases List.countP_pos_iff.mp h with ⟨u, hu, hp⟩
  exact ⟨u, hu, of_decide_eq_true hp⟩

/-! ## Behaviour of the resolver and the discovery loops -/

theorem set_port_scheme (u : Url) (p : Option Nat) : (set_port u p).scheme = u.scheme := by
  unfold set_port
  split <;> rfl

theorem parse_url_ok_step (C : UrlCrate) (base : Option Url) (u : Str) (v : Url)
    (h : rawResolve C base u = .ok v) :
    parse_url C base u =
      (if v.scheme = str "gemini"
       then .ok (if v.port.isNone then set_port v (some 1965) else v)
       else .error .badScheme) := by
  unfold parse_url
  rw [h]
  show (if (if v.port.isNone then set_port v (some 1965) else v).scheme ≠ str "gemini"
        then (Except.error ResolveErr.badScheme : Except ResolveErr Url)
        else .ok (if v.port.isNone then set_port v (some 1965) else v)) = _
  have hsch : (if v.port.isNone then set_port v (some 1965) else v).scheme = v.scheme := by
    split
    · exact set_port_scheme v (some 1965)
    · rfl
  by_cases hs : v.scheme = str "gemini"
  · rw [if_pos hs, if_neg (by rw [hsch]; simp [hs])]
  · rw [if_neg hs, if_pos (by rw [hsch]; exact hs)]

theorem parse_url_err_step (C : UrlCrate) (base : Option Url) (u : Str)
    (e : ResolveErr) (h : rawResolve C base u = .error e) :
    parse_url C base u = .error e := by
  unfold parse_url
  rw [h]

/-! ## Claim theorems -/

/-- Claim C1 (corrected, link-discovery part): for discoveries processed by
`handle_gemtext`, starting from a state with unique entry keys, a queue
whose members all have entries and no repeated address, processing any url
list keeps the entry keys unique (exactly one Crawl Entry per address),
keeps every queued address backed by an entry, keeps every address in the
frontier at most once, grows each referrer list by exactly the number of
discoveries of that address, and creates an entry exactly for the
discovered addresses.  The original claim also covered the seeding loop,
which violates it (see the counterexample). -/
theorem c1_dedup_invariant (base : Url) :
    ∀ (urls : List Url) (entries : Table) (queue : List Url),
    (tableKeys entries).Nodup →
    (∀ q ∈ queue, containsKey (urlToStr q) entries = true) →
    (∀ k, countU k queue ≤ 1) →
    (tableKeys (handleUrls base entries queue urls).1).Nodup ∧
    (∀ q ∈ (handleUrls base entries queue urls).2,
      containsKey (urlToStr q) (handleUrls base entries queue urls).1 = true) ∧
    (∀ k, countU k (handleUrls base entries queue urls).2 ≤ 1) ∧
    (∀ k, refLen k (handleUrls base entries queue urls).1 =
      refLen k entries + countU k urls) ∧
    (∀ k, containsKey k (handleUrls base entries queue urls).1 =
      (containsKey k entries || decide (0 < countU k urls))) := by
  intro urls
  induction urls with
  | nil =>
    intro entries queue hWF hqe hq1
    refine ⟨hWF, hqe, hq1, ?_, ?_⟩
    · intro k; simp [handleUrls, countU_nil]
    · intro k; simp [handleUrls, countU_nil]
  | cons u rest ih =>
    intro entries queue hWF hqe hq1
    by_cases hc : containsKey (urlToStr u) entries = true
    · have hstep : handleUrls base entries queue (u :: rest) =
          handleUrls base
            (updateInfo (urlToStr u)
              (fun i => { i with referred_from := i.referred_from ++ [urlToStr base] })
              entries) queue rest := by
        simp [handleUrls, hc]
      obtain ⟨ihWF, ihqe, ihcnt, ihref, ihcon⟩ :=
        ih (updateInfo (urlToStr u)
            (fun i => { i with referred_from := i.referred_from ++ [urlToStr base] })
            entries) queue
          (by rw [tableKeys_update]; exact hWF)
          (fun q hq2 => by rw [containsKey_update]; exact hqe q hq2)
          hq1
      rw [hstep]
      refine ⟨ihWF, ihqe, ihcnt, ?_, ?_⟩
      · intro k
        rw [ihref k, countU_cons]
        by_cases hk : urlToStr u = k
        · subst hk
          obtain ⟨i, hi⟩ : ∃ i, findInfo (urlToStr u) entries = some i := by
            unfold containsKey at hc
            cases hf : findInfo (urlToStr u) entries with
            | none => rw [hf] at hc; exact absurd hc (by simp)
            | some i => exact ⟨i, rfl⟩
          have e1 : refLen (urlToStr u)
              (updateInfo (urlToStr u)
                (fun i => { i with referred_from := i.referred_from ++ [urlToStr base] })
                entries) = i.referred_from.length + 1 := by
            unfold refLen
            rw [findInfo_update_self, hi]
            simp
          have e2 : refLen (urlToStr u) entries = i.referred_from.length := by
            unfold refLen
            rw [hi]
          rw [e1, e2, if_pos rfl]
          omega
        · unfold refLen
          rw [findInfo_update_other k (urlToStr u) _ entries hk, if_neg hk]
          omega
      · intro k
        rw [ihcon k, containsKey_update, countU_cons]
        by_cases hk : urlToStr u = k
        · subst hk
          rw [hc]
          simp
        · rw [if_neg hk]
          simp
    · have hc2 : containsKey (urlToStr u) entries = false := by
        cases hX : containsKey (urlToStr u) entries
        · rfl
        · exact absurd hX hc
      have hne : findInfo (urlToStr u) entries = none :=
        containsKey_false_findInfo _ _ hc2
      have hstep : handleUrls base entries queue (u :: rest) =
          handleUrls base
            (insertInfo (urlToStr u) (UrlInfo.new (urlToStr base)) entries)
            (queue ++ [u]) rest := by
        simp [handleUrls, hc2]
      have hcq0 : countU (urlToStr u) queue = 0 := by
        cases hcq : countU (urlToStr u) queue with
        | zero => rfl
        | succ n =>
          exfalso
          obtain ⟨q, hqm, hqk⟩ := countU_pos_mem (urlToStr u) queue (by omega)
          have := hqe q hqm
          rw [hqk] at this
          rw [this] at hc2
          exact absurd hc2 (by simp)
      obtain ⟨ihWF, ihqe, ihcnt, ihref, ihcon⟩ :=
        ih (insertInfo (urlToStr u) (UrlInfo.new (urlToStr base)) entries)
          (queue ++ [u])
          (by
            rw [tableKeys_insert_new _ _ _ hne]
            rw [List.nodup_append]
            refine ⟨hWF, List.nodup_singleton _, ?_⟩
            intro a ha ha2
            rw [List.mem_singleton.mp ha2] at ha
            exact not_containsKey_not_mem _ _ hc2 ha)
          (by
            intro q hq2
            rcases List.mem_append.mp hq2 with m | m
            · exact containsKey_insert _ _ _ _ (hqe q m)
            · rw [List.mem_singleton.mp m]
              exact containsKey_insert_self _ _ _)
          (by
            intro k
            rw [countU_append_one]
            by_cases hk : urlToStr u = k
            · subst hk
              rw [hcq0]
              simp
            · rw [if_neg hk]
              simpa using hq1 k)
      rw [hstep]
      refine ⟨ihWF, ihqe, ihcnt, ?_, ?_⟩
      · intro k
        rw [ihref k, countU_cons]
        by_cases hk : urlToStr u = k
        · subst hk
          unfold refLen
          rw [findInfo_insert_self, hne]
          simp [UrlInfo.new]
        · unfold refLen
          rw [findInfo_insert_other k (urlToStr u) _ entries hk, if_neg hk]
          omega
      · intro k
        rw [ihcon k, countU_cons]
        by_cases hk : urlToStr u = k
        · subst hk
          unfold containsKey
          rw [findInfo_insert_self, hne]
          simp
        · unfold containsKey
          rw [findInfo_insert_other k (urlToStr u) _ entries hk, if_neg hk]
          simp

/-- Claim C4 (corrected, link-discovery part): an address already present
in the entry table, regardless of its response code, is never re-queued and
never has its entry replaced by `handle_gemtext`: only its referrer list is
extended, once per rediscovery.  The original claim also covered the start
address and the seeding loop, which violate it (see the counterexample). -/
theorem c4_no_requeue (base : Url) :
    ∀ (urls : List Url) (entries : Table) (queue : List Url) (k : Str) (i : UrlInfo),
    findInfo k entries = some i →
    findInfo k (handleUrls base entries queue urls).1 =
      some { i with referred_from :=
        i.referred_from ++ List.replicate (countU k urls) (urlToStr base) } ∧
    countU k (handleUrls base entries queue urls).2 = countU k queue := by
  intro urls
  induction urls with
  | nil =>
    intro entries queue k i h
    constructor
    · simpa [handleUrls, countU_nil] using h
    · rfl
  | cons u rest ih =>
    intro entries queue k i h
    by_cases hc : containsKey (urlToStr u) entries = true
    · have hstep : handleUrls base entries queue (u :: rest) =
          handleUrls base
            (updateInfo (urlToStr u)
              (fun j => { j with referred_from := j.referred_from ++ [urlToStr base] })
              entries) queue rest := by
        simp [handleUrls, hc]
      rw [hstep]
      by_cases hk : urlToStr u = k
      · subst hk
        have h2 : findInfo (urlToStr u)
            (updateInfo (urlToStr u)
              (fun j => { j with referred_from := j.referred_from ++ [urlToStr base] })
              entries) =
            some { i with referred_from := i.referred_from ++ [urlToStr base] } := by
          rw [findInfo_update_self, h]
          rfl
        obtain ⟨ih1, ih2⟩ := ih _ queue (urlToStr u) _ h2
        constructor
        · rw [ih1]
          rw [countU_cons, if_pos rfl]
          simp [List.append_assoc, List.replicate_succ, Nat.add_comm]
        · exact ih2
      · have h2 : findInfo k
            (updateInfo (urlToStr u)
              (fun j => { j with referred_from := j.referred_from ++ [urlToStr base] })
              entries) = some i := by
          rw [findInfo_update_other k (urlToStr u) _ entries hk]
          exact h
        obtain ⟨ih1, ih2⟩ := ih _ queue k i h2
        constructor
        · rw [ih1, countU_cons, if_neg hk]
          simp
        · exact ih2
    · have hc2 : containsKey (urlToStr u) entries = false := by
        cases hX : containsKey (urlToStr u) entries
        · rfl
        · exact absurd hX hc
      have hk : urlToStr u ≠ k := by
        intro e
        rw [e] at hc2
        unfold containsKey at hc2
        rw [h] at hc2
        exact absurd hc2 (by simp)
      have hstep : handleUrls base entries queue (u :: rest) =
          handleUrls base
            (insertInfo (urlToStr u) (UrlInfo.new (urlToStr base)) entries)
            (queue ++ [u]) rest := by
        simp [handleUrls, hc2]
      rw [hstep]
      have h2 : findInfo k
          (insertInfo (urlToStr u) (UrlInfo.new (urlToStr base)) entries) = some i := by
        rw [findInfo_insert_other k (urlToStr u) _ entries hk]
        exact h
      obtain ⟨ih1, ih2⟩ := ih _ (queue ++ [u]) k i h2
      constructor
      · rw [ih1, countU_cons, if_neg hk]
        simp
      · rw [ih2, countU_append_one, if_neg hk]
        simp

/-- Claim C2 (corrected): for well-formed node sequences, parse after
render returns every node unchanged except `Text` nodes whose content
starts with a reserved prefix, which come back with the escaping space
prepended (stripping it recovers the original content); when no text body
collides with a reserved prefix, the round-trip is the identity.  As
originally stated, over all node sequences, the claim fails (see the
counterexample). -/
theorem c2_parse_render_roundtrip (nodes : List Node) (h : ∀ n ∈ nodes, wfNode n) :
    parse (render nodes) = nodes.map escapeNode ∧
    ((∀ n ∈ nodes, ∀ body, n = Node.Text body → isSpecialText body = false) →
      parse (render nodes) = nodes) := by
  constructor
  · exact parse_render_escape nodes h
  · intro h2
    rw [parse_render_escape nodes h]
    apply aux_map_self
    intro n hn
    cases n with
    | Text body => simp [escapeNode, h2 _ hn body rfl]
    | Link a b => rfl
    | Preformatted a => rfl
    | Heading a b => rfl
    | ListItem a => rfl
    | Quote a => rfl

/-- Claim C2 counterexample: the sequence `[Quote(" x")]` is a legal node
sequence and not a `Text` node, yet it does not survive the round-trip:
the parser trims the quote body, so the leading space is lost. -/
theorem c2_counterexample :
    parse (render [Node.Quote (str " x")]) = [Node.Quote (str "x")] ∧
    parse (render [Node.Quote (str " x")]) ≠ [Node.Quote (str " x")] :=
  ⟨by decide, by decide⟩

/-- Claim C2 witness: a concrete well-formed document with all node kinds
round-trips as stated. -/
theorem c2_parse_render_roundtrip_witness :
    (∀ n ∈ exNodes, wfNode n) ∧ parse (render exNodes) = exNodes.map escapeNode :=
  ⟨by decide, (c2_parse_render_roundtrip exNodes (by decide)).1⟩

/-- Claim C7: the preformatted toggle.  The given document parses to
`[Preformatted "X", Text "", Text "Y"]`; reaching the end of input drops an
open block; a fence line flips the bit and emits nothing itself off-to-on,
and on-to-off emits one `Preformatted` node holding the buffered lines
joined by newline with trailing whitespace trimmed; a non-fence line in a
block is buffered verbatim. -/
theorem c7_preformatted_toggle :
    parse (str "```\nX\n```\n\nY\n") =
      [Node.Preformatted (str "X"), Node.Text (str ""), Node.Text (str "Y")] ∧
    (∀ (inPre : Bool) (buf : Str), parseLines [] inPre buf = []) ∧
    (∀ (l : Str) (ls : List Str) (buf : Str), startsWith (str "```") l = true →
      parseLines (l :: ls) false buf = parseLines ls true buf) ∧
    (∀ (l : Str) (ls : List Str) (buf : Str), startsWith (str "```") l = true →
      parseLines (l :: ls) true buf =
        Node.Preformatted (trimEnd buf) :: parseLines ls false []) ∧
    (∀ (l : Str) (ls : List Str) (buf : Str), startsWith (str "```") l = false →
      parseLines (l :: ls) true buf = parseLines ls true (buf ++ l ++ ['\n'])) ∧
    parse (str "```\nX") = [] :=
  ⟨by decide, fun _ _ => rfl, parseLines_fence_on, parseLines_fence_off,
    parseLines_inPre, by decide⟩

/-- Claim C7 witness: closing a block whose buffer holds one line with
trailing whitespace emits its trimmed body. -/
theorem c7_preformatted_toggle_witness :
    parseLines [str "```"] true (str "X \n") = [Node.Preformatted (str "X")] := by
  have h := c7_preformatted_toggle.2.2.2.1 (str "```") [] (str "X \n") (by decide)
  rw [h]
  decide

/-- Claim C8 (corrected): a link line splits its remainder on runs of ASCII
whitespace; zero tokens emit nothing, one token emits a nameless link, and
two or more emit a link whose name is the remaining tokens joined by
single spaces and trimmed.  The stored target is the first token with
surrounding Unicode whitespace trimmed, which differs from the raw token
exactly when the token starts or ends with non-ASCII whitespace (see the
counterexample); the three concrete examples behave as stated. -/
theorem c8_link_split (rest : Str) (h : '\n' ∉ rest ∧ '\r' ∉ rest) :
    parse ('=' :: '>' :: rest) =
      (match splitAW rest with
       | [] => []
       | [t] => [Node.Link (trim t) none]
       | t :: ts => [Node.Link (trim t) (some (trim (List.intercalate [' '] ts)))]) ∧
    parse (str "=>") = [] ∧
    parse (str "=> /") = [Node.Link (str "/") none] ∧
    parse (str "=> / Go home") = [Node.Link (str "/") (some (str "Go home"))] := by
  refine ⟨?_, by decide, by decide, by decide⟩
  have hnl : '\n' ∉ ('=' :: '>' :: rest) := by
    intro m
    rcases List.mem_cons.mp m with e | m2
    · exact absurd e (by decide)
    rcases List.mem_cons.mp m2 with e | m3
    · exact absurd e (by decide)
    · exact h.1 m3
  have hcr : '\r' ∉ ('=' :: '>' :: rest) := by
    intro m
    rcases List.mem_cons.mp m with e | m2
    · exact absurd e (by decide)
    rcases List.mem_cons.mp m2 with e | m3
    · exact absurd e (by decide)
    · exact h.2 m3
  have hl : rustLines ('=' :: '>' :: rest) = [('=' :: '>' :: rest)] := by
    unfold rustLines
    rw [splitOnNl_no_nl _ hnl, if_neg (by simp)]
    simp [stripCr_eq_self hcr]
  show parseLines (rustLines ('=' :: '>' :: rest)) false [] = _
  rw [hl, parseLines_cons_plain ('=' :: '>' :: rest) [] [] rfl, parseLine_link]
  cases splitAW rest with
  | nil => rfl
  | cons t ts =>
    cases ts with
    | nil => rfl
    | cons m ms => rfl

/-- Claim C8 counterexample: on the line whose remainder is a single
no-break space (U+00A0), the splitter yields the one token U+00A0, but the
code stores its trim, the empty string, not the token itself as the claim
states. -/
theorem c8_counterexample :
    parse ('=' :: '>' :: [Char.ofNat 0xA0]) = [Node.Link [] none] ∧
    parse ('=' :: '>' :: [Char.ofNat 0xA0]) ≠ [Node.Link [Char.ofNat 0xA0] none] :=
  ⟨by decide, by decide⟩

/-- Claim C8 witness: a concrete two-token link line. -/
theorem c8_link_split_witness :
    parse (str "=> /x y") = [Node.Link (str "/x") (some (str "y"))] := by
  have h := (c8_link_split (str " /x y") (by decide)).1
  exact h.trans (by decide)

/-- Claim C9 (corrected): rendering `Text("#1 Best")` produces the escaped
line, and re-parsing that output yields `Text(" #1 Best")` — the escaping
space becomes part of the content, so stripping it recovers the original;
the claim instead stated the re-parse result as `Text("1 Best")`, which is
wrong (see the counterexample). -/
theorem c9_escape_reparse :
    render [Node.Text (str "#1 Best")] = str " #1 Best\n" ∧
    parse (str " #1 Best\n") = [Node.Text (str " #1 Best")] :=
  ⟨by decide, by decide⟩

/-- Claim C9 counterexample: the re-parse of the rendered output is
`Text(" #1 Best")`, not `Text("1 Best")`. -/
theorem c9_counterexample :
    parse (render [Node.Text (str "#1 Best")]) = [Node.Text (str " #1 Best")] ∧
    parse (render [Node.Text (str "#1 Best")]) ≠ [Node.Text (str "1 Best")] :=
  ⟨by decide, by decide⟩

/-- Claim C6 (corrected): the resolver contract of `parse_url`: an
absolute parse is attempted first and, when it succeeds, the join oracle is
never consulted; the fall-back join happens exactly on a
relative-without-base failure with a base present; that failure without a
base, a failed join, and any other parse failure are fatal; any scheme
other than gemini is rejected.  On the port, the code only attempts the
1965 default when none is present: the attempt succeeds exactly when
`set_port` can succeed (the URL has a non-empty host and is not
file-scheme), its failure is silently ignored and leaves the address
portless, and an explicit port is never overwritten.  The original claim
said the default is always set when no port is present, which fails for
cannot-be-a-base parses (see the counterexample). -/
theorem c6_parse_url_contract (C : UrlCrate) (base : Option Url) (u : Str) :
    (∀ v, C.parse u = .ok v →
      parse_url C base u =
        (if v.scheme = str "gemini"
         then .ok (if v.port.isNone then set_port v (some 1965) else v)
         else .error .badScheme)) ∧
    (C.parse u = .error .relativeUrlWithoutBase → base = none →
      parse_url C base u = .error .noBase) ∧
    (∀ b v, base = some b → C.parse u = .error .relativeUrlWithoutBase →
      C.join b u = .ok v →
      parse_url C base u =
        (if v.scheme = str "gemini"
         then .ok (if v.port.isNone then set_port v (some 1965) else v)
         else .error .badScheme)) ∧
    (∀ b e, base = some b → C.parse u = .error .relativeUrlWithoutBase →
      C.join b u = .error e → parse_url C base u = .error (.joinFail e)) ∧
    (∀ e, C.parse u = .error e → e ≠ .relativeUrlWithoutBase →
      parse_url C base u = .error (.parseFail e)) ∧
    (∀ v r, (C.parse u = .ok v ∨ ∃ b, base = some b ∧
        C.parse u = .error .relativeUrlWithoutBase ∧ C.join b u = .ok v) →
      parse_url C base u = .ok r →
      (∀ p, v.port = some p → r.port = some p) ∧
      (v.port = none → setPortOk v = true → r.port = some 1965) ∧
      (v.port = none → setPortOk v = false → r.port = none)) := by
  refine ⟨?_, ?_, ?_, ?_, ?_, ?_⟩
  · intro v hv
    exact parse_url_ok_step C base u v (by simp [rawResolve, hv])
  · intro h1 h2
    subst h2
    exact parse_url_err_step C none u _ (by simp [rawResolve, h1])
  · intro b v hb hv hj
    subst hb
    exact parse_url_ok_step C (some b) u v (by simp [rawResolve, hv, hj])
  · intro b e hb hv hj
    subst hb
    exact parse_url_err_step C (some b) u _ (by simp [rawResolve, hv, hj])
  · intro e h1 h2
    cases e with
    | relativeUrlWithoutBase => exact absurd rfl h2
    | otherErr n =>
      exact parse_url_err_step C base u _ (by simp [rawResolve, h1])
  · intro v r hv hr
    have hstep : parse_url C base u =
        (if v.scheme = str "gemini"
         then .ok (if v.port.isNone then set_port v (some 1965) else v)
         else .error .badScheme) := by
      rcases hv with hv | ⟨b, hb, hv, hj⟩
      · exact parse_url_ok_step C base u v (by simp [rawResolve, hv])
      · subst hb
        exact parse_url_ok_step C (some b) u v (by simp [rawResolve, hv, hj])
    rw [hstep] at hr
    by_cases hs : v.scheme = str "gemini"
    · rw [if_pos hs] at hr
      injection hr with hr2
      refine ⟨?_, ?_, ?_⟩
      · intro p hp
        rw [← hr2]
        simp [hp]
      · intro hp hok
        rw [← hr2]
        simp [hp, set_port, hok]
      · intro hp hfail
        rw [← hr2]
        simp [hp, set_port, hfail]
    · rw [if_neg hs] at hr
      exact absurd hr (by simp)

/-- Claim C6 counterexample: a url-crate behaviour matching the real crate
on the absolute input gemini:foo — the parse succeeds with no host and no
port — makes `parse_url` return the address still portless: the default
port is not set after this successful parse, because `set_port` fails on a
cannot-be-a-base URL and the code discards the error. -/
theorem c6_counterexample :
    cbCrate.parse (str "gemini:foo") = .ok cbUrl ∧ cbUrl.port = none ∧
    parse_url cbCrate none (str "gemini:foo") = .ok cbUrl ∧
    parse_url cbCrate none (str "gemini:foo") ≠ .ok { cbUrl with port := some 1965 } :=
  ⟨by decide, by decide, by decide, by decide⟩

/-- Claim C6 witness: a host-carrying portless parse gets the 1965 default,
and an explicit port is preserved. -/
theorem c6_parse_url_contract_witness :
    parse_url exCrateNP none (str "x") = .ok { exUrlNP with port := some 1965 } ∧
    parse_url exCrate none (str "gemini://h:1965/a") = .ok exUrlA := by
  constructor
  · have h := (c6_parse_url_contract exCrateNP none (str "x")).1 exUrlNP rfl
    exact h.trans (by decide)
  · have h := (c6_parse_url_contract exCrate none
      (str "gemini://h:1965/a")).1 exUrlA rfl
    exact h.trans (by decide)

/-- Claim C5 (code bug): the stored-address invariant fails on the code.
With the url-crate behaviour the real crate exhibits on the link target
gemini:foo — a successful absolute parse to a cannot-be-a-base URL with no
host and no port — `set_port` fails, `parse_url` discards the error
(`let _ = ur.set_port(Some(1965))`), the scheme check passes, and the
portless gemini address is returned, pushed onto the frontier and entered
into the entry table; a later fetch of it would panic on the unconditional
`ur.port().unwrap()` in `get`.  The claim and the spec are the code's own
assumption, so the discarded `set_port` failure is the slip. -/
theorem c5_portless_address_stored :
    parse_url cbCrate none (str "gemini:foo") = .ok cbUrl ∧
    cbUrl.scheme = str "gemini" ∧ cbUrl.port = none ∧
    extract_urls cbCrate exStart ((str "=> gemini:foo\n").map Char.toNat) = [cbUrl] ∧
    (handleUrls exStart [] [] [cbUrl]).2 = [cbUrl] ∧
    findInfo (urlToStr cbUrl) (handleUrls exStart [] [] [cbUrl]).1 =
      some (UrlInfo.new (urlToStr exStart)) :=
  ⟨by decide, by decide, by decide, by decide, by decide, by decide⟩

/-- Claim C1 witness: two discoveries of the same fresh address through the
link-discovery loop create one entry with two referrers and queue the
address once. -/
theorem c1_dedup_invariant_witness :
    refLen (urlToStr exUrlA) (handleUrls exStart [] [] [exUrlA, exUrlA]).1 = 2 ∧
    countU (urlToStr exUrlA) (handleUrls exStart [] [] [exUrlA, exUrlA]).2 = 1 := by
  have h := c1_dedup_invariant exStart [exUrlA, exUrlA] [] []
    (by decide) (by decide) (fun k => by simp [countU])
  constructor
  · rw [h.2.2.2.1 (urlToStr exUrlA)]
    decide
  · decide

/-- Claim C1 counterexample: the seeding loop of `crawl` does not
deduplicate.  A start page that links the same address twice pushes it onto
the frontier twice, and the entry ends with one referrer although there
were two discovery events. -/
theorem c1_counterexample :
    extract_urls exCrate exStart exStartPage = [exUrlA, exUrlA] ∧
    countU (urlToStr exUrlA) (crawlInit exCrate [] exStart exStartPage).2 = 2 ∧
    refLen (urlToStr exUrlA) (crawlInit exCrate [] exStart exStartPage).1 = 1 :=
  ⟨by decide, by decide, by decide⟩

/-- Claim C4 witness: a rediscovery of a checkpointed, already-fetched
address through the link-discovery loop appends one referrer, keeps the
rest of the entry (code 20 included), and queues nothing. -/
theorem c4_no_requeue_witness :
    findInfo (urlToStr exUrlA) (handleUrls exStart exLoaded [] [exUrlA]).1 =
      some { referred_from := [str "x", urlToStr exStart], timed_out := false,
             malformed_response := false, response_code := 20,
             metatext := str "text/gemini" } ∧
    countU (urlToStr exUrlA) (handleUrls exStart exLoaded [] [exUrlA]).2 = 0 := by
  have h := c4_no_requeue exStart [exUrlA] exLoaded [] (urlToStr exUrlA)
    exLoadedInfo (by decide)
  exact ⟨h.1.trans (by decide), h.2.trans (by decide)⟩

/-- Claim C4 counterexample: resuming from a checkpoint that already holds
the address of `exUrlA` with response code 20, the seeding phase of `crawl`
re-queues that address (twice, even) and replaces its entry with a fresh
code-zero entry, because the seeding loop inserts unconditionally. -/
theorem c4_counterexample :
    findInfo (urlToStr exUrlA) exLoaded = some exLoadedInfo ∧
    exLoadedInfo.response_code = 20 ∧
    (crawlInit exCrate exLoaded exStart exStartPage).2 = [exUrlA, exUrlA] ∧
    findInfo (urlToStr exUrlA) (crawlInit exCrate exLoaded exStart exStartPage).1 =
      some (UrlInfo.new (urlToStr exStart)) :=
  ⟨by decide, by decide, by decide, by decide⟩

/-- Claim C3 (code bug): a response whose bytes are not valid text is
handled as specified (the entry is marked malformed and the loop moves on),
but a non-empty response whose header is too short to split — the single
byte 0x34, the character 4 — makes the original program panic on the
string slice `header[0..=1]` instead of marking the entry malformed: the
embedded step reaches the panic outcome. -/
theorem c3_short_header_panics :
    crawlStep exCrate [(urlToStr exUrlA, UrlInfo.new (str "x"))] [] exUrlA
      (.success [0x34]) = .panicked ∧
    crawlStep exCrate [(urlToStr exUrlA, UrlInfo.new (str "x"))] [] exUrlA
      (.success [0xFF]) =
      .ok [(urlToStr exUrlA,
        { UrlInfo.new (str "x") with malformed_response := true })] [] :=
  ⟨by decide, by decide⟩

/-- Claim C10: a zero-length response is skipped silently: the entry table
and the queue are returned unchanged, so the entry keeps all its fields,
no links are extracted, and the address is not re-queued. -/
theorem c10_empty_response_skip (C : UrlCrate) (entries : Table) (queue : List Url)
    (link : Url) (i : UrlInfo) (h : findInfo (urlToStr link) entries = some i) :
    crawlStep C entries queue link (.success []) = .ok entries queue := by
  unfold crawlStep
  rw [h]
  rfl

/-- Claim C10 witness. -/
theorem c10_empty_response_skip_witness :
    crawlStep exCrate [(urlToStr exUrlA, UrlInfo.new (str "x"))] [] exUrlA
      (.success []) = .ok [(urlToStr exUrlA, UrlInfo.new (str "x"))] [] :=
  c10_empty_response_skip exCrate [(urlToStr exUrlA, UrlInfo.new (str "x"))] []
    exUrlA (UrlInfo.new (str "x")) (by decide)

end Curiosity
